import Mathlib

/-!
Shallow embedding of the singly-linked-list module (sll.py) of the
algorithms repository, together with proofs of the specification claims.

A singly linked list is identified by its head node; an absent head is the
empty list.  For operations whose behaviour is determined by the sequence of
nodes reachable from the head (every operation except the topology
detectors), an acyclic node chain is modelled as a Lean `List α` of the node
payloads; the empty list models an absent head.  Node identity is captured
by instantiating `α` with a type of distinct tags (for example `Nat × V`
pairs of an original position and a value).  In-place pointer mutation is
modelled by returning the resulting chains.  Python `ValueError` is modelled
by `Except String`.

The topology detectors (`has_cycle`) operate on possibly-cyclic heaps; these
are modelled as a successor map `Nat → Option Nat` over node identifiers,
and the tortoise-and-hare loop is modelled with an explicit step budget
(`fuel`); reaching a `return` within the budget models termination.
-/

namespace SLL

variable {α : Type} {β : Type} {κ : Type} [LinearOrder κ]

/-- Model of `helpers.is_sorted` restricted to a key selector: adjacent
values pairwise satisfy `key lhs ≤ key rhs` (the `all`-over-`pairwise` loop
of the source). -/
def is_sorted (key : α → κ) (l : List α) : Prop :=
  List.Chain' (fun a b => key a ≤ key b) l

instance (key : α → κ) (l : List α) : Decidable (is_sorted key l) :=
  haveI : IsTrans α (fun a b => key a ≤ key b) := ⟨fun _ _ _ => le_trans⟩
  decidable_of_iff (l.Pairwise fun a b => key a ≤ key b)
    List.chain'_iff_pairwise.symm


/-- The walking loop of `advance`: step to `.next` up to `distance` times,
returning the node reached (the suffix starting there); `[]` models `None`. -/
def advanceGo : List α → Nat → List α
  | head, 0 => head
  | [], _ + 1 => []
  | _ :: t, n + 1 => advanceGo t n

/-- Model of `sll.advance`: negative distances raise `ValueError`. -/
def advance (head : List α) (distance : Int) : Except String (List α) :=
  if distance < 0 then
    .error "cannot advance a negative distance in a singly linked list"
  else
    .ok (advanceGo head distance.toNat)

/-- The walk of `split_at` after the index check: advance `index - 1` links
from the head; if a node is reached, detach its tail.  The first component
is the state of the original chain after the call (truncated exactly when a
node was reached); the second is `none` when `advance` ran out (the Python
function returns `None` and performs no mutation). -/
def splitAtGo : List α → Nat → List α × Option (List α)
  | [], _ => ([], none)
  | x :: t, 0 => ([x], some t)
  | x :: t, n + 1 =>
    let p := splitAtGo t n
    (x :: p.1, p.2)

/-- Model of `sll.split_at`: non-positive indices raise `ValueError`. -/
def split_at (head : List α) (index : Int) :
    Except String (List α × Option (List α)) :=
  if index ≤ 0 then .error "refusing to split at a non-positive index"
  else .ok (splitAtGo head (index - 1).toNat)

/-- The tortoise-and-hare loop of `split`: the slow pointer is the first
argument (a suffix of the original chain), the fast pointer the second.
Each iteration moves slow one link and fast two; at exit the chain is cut
just after the slow node. -/
def splitGo : List α → List α → List α × List α
  | s :: srest, _ :: _ :: frest =>
    let p := splitGo srest frest
    (s :: p.1, p.2)
  | slow, _ => (slow.take 1, slow.drop 1)

/-- Model of `sll.split`: halve the chain by tortoise and hare, returning
(first half after truncation, second half).  The fast pointer starts at
`head.next`. -/
def split : List α → List α × List α
  | [] => ([], [])
  | x :: t => splitGo (x :: t) t

/-- Model of `sll.concat`: link the last node of `first` to `second`. -/
def concat (first second : List α) : List α := first ++ second

/-- The loop of `sll.reverse`: `acc` is the already-reversed prefix. -/
def reverseGo : List α → List α → List α
  | acc, [] => acc
  | acc, x :: t => reverseGo (x :: acc) t

/-- Model of `sll.reverse`: in-place reversal by pointer rewiring. -/
def reverse (head : List α) : List α := reverseGo [] head

/-- Model of `sll.merge`: two-way merge; a node of `head2` is taken exactly
when its key is strictly smaller than the current `head1` key. -/
def merge (key : α → κ) : List α → List α → List α
  | [], head2 => head2
  | x :: t1, [] => x :: t1
  | x :: t1, y :: t2 =>
    if key y < key x then y :: merge key (x :: t1) t2
    else x :: merge key t1 (y :: t2)
termination_by l1 l2 => l1.length + l2.length

/-- The inner scan of `insertion_sort`: walk the output chain while the next
node's key is `≤` the inserted key, splicing the new node in there. -/
def insertLE (key : α → κ) (x : α) : List α → List α
  | [] => [x]
  | y :: t => if key y ≤ key x then y :: insertLE key x t else x :: y :: t

/-- The inner scan of `insertion_sort_antistable`: walk while the next
node's key is strictly `<` the inserted key. -/
def insertLT (key : α → κ) (x : α) : List α → List α
  | [] => [x]
  | y :: t => if key y < key x then y :: insertLT key x t else x :: y :: t

/-- The inner scan of `insertion_sort_alt`: walk while the inserted key is
strictly `<` the next node's key (the output chain is kept in reverse
order). -/
def insertAlt (key : α → κ) (x : α) : List α → List α
  | [] => [x]
  | y :: t => if key x < key y then y :: insertAlt key x t else x :: y :: t

/-- The outer loop of `insertion_sort`: repeatedly detach the input head and
insert it into the output chain. -/
def insertion_sortGo (key : α → κ) : List α → List α → List α
  | out, [] => out
  | out, x :: rest => insertion_sortGo key (insertLE key x out) rest

/-- Model of `sll.insertion_sort` (stable). -/
def insertion_sort (key : α → κ) (head : List α) : List α :=
  insertion_sortGo key [] head

/-- The outer loop of `insertion_sort_antistable`. -/
def insertion_sort_antistableGo (key : α → κ) : List α → List α → List α
  | out, [] => out
  | out, x :: rest => insertion_sort_antistableGo key (insertLT key x out) rest

/-- Model of `sll.insertion_sort_antistable`. -/
def insertion_sort_antistable (key : α → κ) (head : List α) : List α :=
  insertion_sort_antistableGo key [] head

/-- The outer loop of `insertion_sort_alt` (before the final reversal). -/
def insertion_sort_altGo (key : α → κ) : List α → List α → List α
  | out, [] => out
  | out, x :: rest => insertion_sort_altGo key (insertAlt key x out) rest

/-- Model of `sll.insertion_sort_alt`: insert anti-stably into a descending
chain, then reverse the whole result. -/
def insertion_sort_alt (key : α → κ) (head : List α) : List α :=
  reverse (insertion_sort_altGo key [] head)

/- The following three length facts about `split` are stated here, before
the remaining definitions, because the termination argument of `mergesort`
depends on them. -/

theorem splitGo_append (s f : List α) :
    (splitGo s f).1 ++ (splitGo s f).2 = s := by
  induction s generalizing f with
  | nil =>
    cases f with
    | nil => simp [splitGo]
    | cons a f' => cases f' <;> simp [splitGo]
  | cons x t ih =>
    cases f with
    | nil => simp [splitGo]
    | cons a f' =>
      cases f' with
      | nil => simp [splitGo]
      | cons b f'' => simpa [splitGo] using ih f''

theorem splitGo_fst_length (s f : List α) :
    (splitGo s f).1.length = min s.length (f.length / 2 + 1) := by
  induction s generalizing f with
  | nil =>
    cases f with
    | nil => simp [splitGo]
    | cons a f' => cases f' <;> simp [splitGo]
  | cons x t ih =>
    cases f with
    | nil => simp [splitGo]
    | cons a f' =>
      cases f' with
      | nil => simp [splitGo]
      | cons b f'' =>
        simp only [splitGo, List.length_cons]
        rw [ih f'']
        omega

theorem split_append (l : List α) : (split l).1 ++ (split l).2 = l := by
  cases l with
  | nil => simp [split]
  | cons x t => exact splitGo_append (x :: t) t

theorem split_fst_length (l : List α) :
    (split l).1.length = (l.length + 1) / 2 := by
  cases l with
  | nil => simp [split]
  | cons x t =>
    have h := splitGo_fst_length (x :: t) t
    simp only [split, List.length_cons] at *
    omega

theorem split_snd_length (l : List α) :
    (split l).2.length = l.length / 2 := by
  have h1 := split_append l
  have h2 := split_fst_length l
  have h3 : (split l).1.length + (split l).2.length = l.length := by
    rw [← List.length_append, h1]
  omega

/-- Model of `sll.mergesort` (recursive top-down). -/
def mergesort (key : α → κ) : List α → List α
  | [] => []
  | [x] => [x]
  | x :: y :: t =>
    merge key (mergesort key (split (x :: y :: t)).1)
      (mergesort key (split (x :: y :: t)).2)
termination_by l => l.length
decreasing_by
  · have := split_fst_length (x :: y :: t)
    simp only [List.length_cons] at *
    omega
  · have := split_snd_length (x :: y :: t)
    simp only [List.length_cons] at *
    omega

/-- One pass of the inner loop of `mergesort_bottomup` over the whole chain:
detach a block `low` of `delta` nodes and a following block `mid` of `delta`
nodes (`split_at`, cf. `splitAtGo_eq`: the detached block is `take delta`
and the remainder `drop delta`), merge them, reattach, and continue after
them; the pass stops early when a block runs short, leaving the remainder
(already merged where possible) attached.  `delta` is always positive at
call sites (it starts at 1 and doubles); the `delta = 0` branch is
unreachable and only keeps the recursion well founded. -/
def bupass (key : α → κ) (delta : Nat) (l : List α) : List α :=
  if delta = 0 then l
  else if l.isEmpty then []
  else if l.length ≤ delta then l
  else if l.length ≤ 2 * delta then merge key (l.take delta) (l.drop delta)
  else
    merge key (l.take delta) ((l.drop delta).take delta) ++
      bupass key delta ((l.drop delta).drop delta)
termination_by l.length
decreasing_by simp; omega

/-- The outer loop of `mergesort_bottomup`: the block size `delta` starts at
1 and doubles each round, so after `i` rounds it is `2 ^ i`; the loop runs
while `delta` is below the total length `n` computed once at entry. -/
def bumainGo (key : α → κ) (n : Nat) (i : Nat) (l : List α) : List α :=
  if 2 ^ i < n then bumainGo key n (i + 1) (bupass key (2 ^ i) l) else l
termination_by n - 2 ^ i
decreasing_by
  have _h2 : 2 ^ i < 2 ^ (i + 1) := Nat.pow_lt_pow_succ (by omega)
  omega

/-- Model of `sll.mergesort_bottomup` (iterative bottom-up). -/
def mergesort_bottomup (key : α → κ) (head : List α) : List α :=
  bumainGo key head.length 0 head

/-- The scan of `remove_min`: `bestIdx` is the position of the first node
with the minimum key so far, `bestC` its key, `pos` the position of the node
under examination (`pre.next`); a strictly smaller key moves the minimum. -/
def removeMinGo (key : α → κ) (bestIdx : Nat) (bestC : κ) (pos : Nat) :
    List α → Nat
  | [] => bestIdx
  | y :: t =>
    if key y < bestC then removeMinGo key pos (key y) (pos + 1) t
    else removeMinGo key bestIdx bestC (pos + 1) t

/-- Model of `sll.remove_min`: the empty list raises `ValueError`; otherwise
the first node holding the minimum key is unlinked
(`best.next = best.next.next`). -/
def remove_min (key : α → κ) : List α → Except String (List α)
  | [] => .error "empty linked list has no minimum value"
  | x :: t => .ok ((x :: t).eraseIdx (removeMinGo key 0 (key x) 1 t))

/-- The tortoise-and-hare loop of `has_cycle` over a successor map on node
identifiers.  Each iteration requires `fast` and `fast.next` to exist, moves
the slow pointer one link and the fast pointer two, and returns `true` when
they reference the same node.  The loop is modelled with an explicit step
budget; `none` means the budget was exhausted before the loop returned. -/
def floydGo (nx : Nat → Option Nat) :
    Option Nat → Option Nat → Nat → Option Bool
  | _, _, 0 => none
  | slow, fast, fuel + 1 =>
    match fast with
    | none => some false
    | some f =>
      match nx f with
      | none => some false
      | some f1 =>
        if slow.bind nx = nx f1 then some true
        else floydGo nx (slow.bind nx) (nx f1) fuel

/-- Model of `sll.has_cycle`: both pointers start at the head. -/
def has_cycle (nx : Nat → Option Nat) (head : Option Nat) (fuel : Nat) :
    Option Bool :=
  floydGo nx head head fuel

/-- The heap of an acyclic chain of `n` nodes numbered `0, …, n - 1` in list
order (as built by `make_from`): each node links to its successor, the last
to nothing. -/
def chainNext (n : Nat) (i : Nat) : Option Nat :=
  if i + 1 < n then some (i + 1) else none

/-- The head of a chain of `n` nodes: absent when `n = 0`. -/
def chainHead (n : Nat) : Option Nat :=
  if n = 0 then none else some 0

/-- The heap of a chain of `n` nodes whose last node's next link has been
set to the earlier node `j` (`last(d).next = advance(d, j)`). -/
def backNext (n j : Nat) (i : Nat) : Option Nat :=
  if i + 1 < n then some (i + 1) else some j

/-- First loop of `_advance_longer`: advance both leaders in lockstep until
one runs out, returning both remainders (at most one is nonempty). -/
def dropBoth : List α → List α → List α × List α
  | _ :: t1, _ :: t2 => dropBoth t1 t2
  | l1, l2 => (l1, l2)

/-- Second and third loops of `_advance_longer`: advance `head` one link per
remaining leader node.  (`head.tail` models `head.next`; the leader is a
suffix of `head`'s chain, so `head` cannot run out first.) -/
def dropAlong : List α → List α → List α
  | head, [] => head
  | head, _ :: lt => dropAlong head.tail lt

/-- Model of `sll._advance_longer`: reduce the longer list to a suffix of
the same length as the shorter one. -/
def advance_longer (l1 l2 : List α) : List α × List α :=
  (dropAlong l1 (dropBoth l1 l2).1, dropAlong l2 (dropBoth l1 l2).2)

/-- The lockstep walk of `overlap` after length equalization, including the
two internal assertions, which are modelled as `Except.error`.  Node
identity (`is`) is modelled as equality of node identifiers. -/
def overlapGo [DecidableEq α] : List α → List α → Except String Bool
  | [], l2 =>
    if l2 = [] then .ok false
    else .error "Wrong length computation, first linked list ran out."
  | _ :: _, [] => .error "Wrong length computation, second linked list ran out."
  | x :: t1, y :: t2 => if x = y then .ok true else overlapGo t1 t2

/-- Model of `sll.overlap`. -/
def overlap [DecidableEq α] (l1 l2 : List α) : Except String Bool :=
  overlapGo (advance_longer l1 l2).1 (advance_longer l1 l2).2

/-- Key selector on index-tagged values: the tag is ignored. -/
def tagKey (key : β → κ) (p : Nat × β) : κ := key p.2

/-- Stability relation on index-tagged values: equal-keyed elements appear
in increasing original-index order. -/
def stableTag (key : β → κ) (a b : Nat × β) : Prop :=
  key a.2 = key b.2 → a.1 < b.1

/-- Antistability relation: equal-keyed elements appear in decreasing
original-index order. -/
def antiTag (key : β → κ) (a b : Nat × β) : Prop :=
  key a.2 = key b.2 → b.1 < a.1

/-- Invariant of the outer loop of `mergesort_bottomup`: every
`delta`-aligned block of the chain is non-decreasing by the key. -/
def BlockSorted (key : α → κ) (delta : Nat) (l : List α) : Prop :=
  ∀ i, ((l.drop (delta * i)).take delta).Pairwise (fun a b => key a ≤ key b)

/-- The index of the node reached after `k` steps from the head in the
back-edge heap `backNext n j`: straight along the chain for the first
`n - 1` steps, then around the cycle `j, j + 1, …, n - 1` of length
`n - j`. -/
def rhoPos (n j k : Nat) : Nat :=
  if k < n then k else j + (k - j) % (n - j)

theorem splitAtGo_eq (l : List α) (n : Nat) :
    splitAtGo l n =
      if l.length ≤ n then (l, none)
      else (l.take (n + 1), some (l.drop (n + 1))) := by
  induction l generalizing n with
  | nil => simp [splitAtGo]
  | cons x t ih =>
    cases n with
    | zero => simp [splitAtGo]
    | succ m =>
      simp only [splitAtGo, ih m, List.length_cons]
      by_cases h : t.length ≤ m
      · rw [if_pos h, if_pos (by omega)]
      · rw [if_neg h, if_neg (by omega)]
        simp

theorem reverseGo_eq (acc l : List α) : reverseGo acc l = l.reverse ++ acc := by
  induction l generalizing acc with
  | nil => simp [reverseGo]
  | cons x t ih => simp [reverseGo, ih]

theorem reverse_eq_reverse (l : List α) : reverse l = l.reverse := by
  simp [reverse, reverseGo_eq]

/-- Claim C9: for every acyclic list, reversing twice restores the original
traversal: the same nodes (the element type is arbitrary, so it can carry
node identities alongside values), in the same order. -/
theorem C9_reverse_reverse (l : List α) : reverse (reverse l) = l := by
  simp [reverse_eq_reverse]

/-- Claim C5: `split` leaves a first part of ⌈n/2⌉ nodes, returns a second
part of ⌊n/2⌋ nodes, and `concat` of the two parts reconstructs the original
sequence. -/
theorem C5_split_concat (l : List α) :
    (split l).1.length = (l.length + 1) / 2 ∧
    (split l).2.length = l.length / 2 ∧
    concat (split l).1 (split l).2 = l :=
  ⟨split_fst_length l, split_snd_length l, split_append l⟩

theorem advanceGo_eq_drop (l : List α) (n : Nat) : advanceGo l n = l.drop n := by
  induction l generalizing n with
  | nil => cases n <;> simp [advanceGo]
  | cons x t ih => cases n <;> simp [advanceGo, ih]

/-- Claim C8: `advance` fails with `ValueError` on every negative distance
and returns an absent node when the list is shorter than the distance;
`split_at` fails with `ValueError` on every non-positive index and, when the
index exceeds the list length, returns an absent second list leaving the
first list unchanged. -/
theorem C8_advance_split_at (l : List α) (d index : Int) :
    (d < 0 →
      advance l d =
        .error "cannot advance a negative distance in a singly linked list") ∧
    (0 ≤ d → (l.length : Int) < d → advance l d = .ok []) ∧
    (index ≤ 0 →
      split_at l index = .error "refusing to split at a non-positive index") ∧
    ((l.length : Int) < index → split_at l index = .ok (l, none)) := by
  refine ⟨fun h => by simp [advance, h], fun h0 hlen => ?_, fun h => by
    simp [split_at, h], fun hlen => ?_⟩
  · rw [advance, if_neg (by omega)]
    rw [advanceGo_eq_drop, List.drop_eq_nil_of_le (by omega)]
  · rw [split_at, if_neg (by omega)]
    rw [splitAtGo_eq, if_pos (by omega)]

/-- C8 applied at the concrete scenarios of the specification: a negative
advance, an advance past the end, a split at index 0, and a split at index 5
of a four-node list (which returns an absent second list and an unchanged
first list). -/
theorem C8_witness :
    advance ([10, 20, 30, 40] : List Nat) (-1) =
      .error "cannot advance a negative distance in a singly linked list" ∧
    advance ([10, 20, 30, 40] : List Nat) 5 = .ok [] ∧
    split_at ([10, 20, 30, 40] : List Nat) 0 =
      .error "refusing to split at a non-positive index" ∧
    split_at ([10, 20, 30, 40] : List Nat) 5 = .ok ([10, 20, 30, 40], none) :=
  ⟨(C8_advance_split_at [10, 20, 30, 40] (-1) 0).1 (by decide),
   (C8_advance_split_at [10, 20, 30, 40] 5 0).2.1 (by decide) (by decide),
   (C8_advance_split_at [10, 20, 30, 40] 0 0).2.2.1 (by decide),
   (C8_advance_split_at [10, 20, 30, 40] 0 5).2.2.2 (by decide)⟩

theorem dropBoth_eq (l1 l2 : List α) :
    dropBoth l1 l2 = (l1.drop l2.length, l2.drop l1.length) := by
  induction l1 generalizing l2 with
  | nil => cases l2 <;> simp [dropBoth]
  | cons x t ih => cases l2 <;> simp [dropBoth, ih]

theorem dropAlong_eq (h : List α) (lt : List α) :
    dropAlong h lt = h.drop lt.length := by
  induction lt generalizing h with
  | nil => simp [dropAlong]
  | cons a t ih =>
    cases h with
    | nil => simp [dropAlong, ih]
    | cons b bt => simp [dropAlong, ih]

theorem advance_longer_lengths (l1 l2 : List α) :
    (advance_longer l1 l2).1.length = min l1.length l2.length ∧
    (advance_longer l1 l2).2.length = min l1.length l2.length := by
  simp only [advance_longer, dropBoth_eq, dropAlong_eq, List.length_drop]
  omega

theorem overlapGo_ok [DecidableEq α] (l1 l2 : List α)
    (h : l1.length = l2.length) : ∃ b, overlapGo l1 l2 = .ok b := by
  induction l1 generalizing l2 with
  | nil =>
    cases l2 with
    | nil => exact ⟨false, by simp [overlapGo]⟩
    | cons y t2 => simp at h
  | cons x t1 ih =>
    cases l2 with
    | nil => simp at h
    | cons y t2 =>
      by_cases hxy : x = y
      · exact ⟨true, by simp [overlapGo, hxy]⟩
      · obtain ⟨b, hb⟩ := ih t2 (by simpa using h)
        exact ⟨b, by simp [overlapGo, hxy, hb]⟩

/-- Claim C7: for every pair of acyclic input lists (over an arbitrary type
of node identifiers, so any pattern of shared nodes is covered), `overlap`
returns a boolean and never reaches either assertion-failure branch: after
length equalization the two suffixes reach their ends simultaneously. -/
theorem C7_overlap_assertions [DecidableEq α] (l1 l2 : List α) :
    ∃ b, overlap l1 l2 = .ok b := by
  have h := advance_longer_lengths l1 l2
  exact overlapGo_ok _ _ (by omega)

/-- Claim C3 is false as stated: on the two-element input `[1, 2]` with the
identity key, `insertion_sort_alt` yields `[1, 2]`, while reversing the
result of `insertion_sort_antistable` (which also yields `[1, 2]`) gives
`[2, 1]`. -/
theorem C3_counterexample :
    insertion_sort_alt (fun v : Nat => v) [1, 2] ≠
      reverse (insertion_sort_antistable (fun v : Nat => v) [1, 2]) := by
  decide

theorem insertAlt_eq_dual (key : α → κ) (x : α) (l : List α) :
    insertAlt key x l =
      insertLT (κ := κᵒᵈ) (fun a => OrderDual.toDual (key a)) x l := by
  induction l with
  | nil => rfl
  | cons y t ih =>
    simp only [insertAlt, insertLT, ih, OrderDual.toDual_lt_toDual]

theorem altGo_eq_dual (key : α → κ) (out rest : List α) :
    insertion_sort_altGo key out rest =
      insertion_sort_antistableGo (κ := κᵒᵈ)
        (fun a => OrderDual.toDual (key a)) out rest := by
  induction rest generalizing out with
  | nil => rfl
  | cons x r ih =>
    simp only [insertion_sort_altGo, insertion_sort_antistableGo,
      insertAlt_eq_dual, ih]

/-- Claim C3, amended: `insertion_sort_alt` runs the antistable insertion
algorithm under the reversed key ordering (its scan advances while the
inserted key is strictly below the scanned key, i.e. strictly above it in
the dual order) and then reverses the whole result. -/
theorem C3_amended (key : α → κ) (l : List α) :
    insertion_sort_alt key l =
      reverse (insertion_sort_antistable (κ := κᵒᵈ)
        (fun a => OrderDual.toDual (key a)) l) := by
  simp only [insertion_sort_alt, insertion_sort_antistable, altGo_eq_dual]

theorem removeMinGo_spec (key : α → κ) (t : List α) :
    ∀ bestIdx bestC pos,
      (removeMinGo key bestIdx bestC pos t = bestIdx ∧
        ∀ y ∈ t, bestC ≤ key y) ∨
      ∃ u y v, t = u ++ y :: v ∧
        removeMinGo key bestIdx bestC pos t = pos + u.length ∧
        key y < bestC ∧ (∀ z ∈ u, key y < key z) ∧ ∀ z ∈ v, key y ≤ key z := by
  induction t with
  | nil => intro bestIdx bestC pos; exact Or.inl ⟨rfl, by simp⟩
  | cons y0 t' ih =>
    intro bestIdx bestC pos
    by_cases h : key y0 < bestC
    · rw [show removeMinGo key bestIdx bestC pos (y0 :: t') =
          removeMinGo key pos (key y0) (pos + 1) t' by
        simp [removeMinGo, h]]
      rcases ih pos (key y0) (pos + 1) with ⟨hEq, hAll⟩ |
        ⟨u', y', v', ht', hEq, hlt, hu, hv⟩
      · exact Or.inr ⟨[], y0, t', by simp, by simpa using hEq, h, by simp,
          hAll⟩
      · refine Or.inr ⟨y0 :: u', y', v', by simp [ht'], ?_,
          lt_trans hlt h, ?_, hv⟩
        · rw [hEq]; simp; omega
        · intro z hz
          rcases List.mem_cons.mp hz with rfl | hz'
          · exact hlt
          · exact hu z hz'
    · rw [show removeMinGo key bestIdx bestC pos (y0 :: t') =
          removeMinGo key bestIdx bestC (pos + 1) t' by
        simp [removeMinGo, h]]
      rcases ih bestIdx bestC (pos + 1) with ⟨hEq, hAll⟩ |
        ⟨u', y', v', ht', hEq, hlt, hu, hv⟩
      · refine Or.inl ⟨hEq, ?_⟩
        intro z hz
        rcases List.mem_cons.mp hz with rfl | hz'
        · exact le_of_not_lt h
        · exact hAll z hz'
      · refine Or.inr ⟨y0 :: u', y', v', by simp [ht'], ?_, hlt, ?_, hv⟩
        · rw [hEq]; simp; omega
        · intro z hz
          rcases List.mem_cons.mp hz with rfl | hz'
          · exact lt_of_lt_of_le hlt (le_of_not_lt h)
          · exact hu z hz'

theorem eraseIdx_append_middle (u v : List α) (y : α) :
    (u ++ y :: v).eraseIdx u.length = u ++ v := by
  induction u with
  | nil => rfl
  | cons a u' ih => simpa [List.eraseIdx] using ih

/-- Claim C10: on the empty list `remove_min` raises the empty-collection
error; on a non-empty list it returns exactly the original nodes minus the
first node whose key is minimal, with the remaining nodes in their original
relative order. -/
theorem C10_remove_min (key : α → κ) (l : List α) :
    (l = [] →
      remove_min key l = .error "empty linked list has no minimum value") ∧
    (l ≠ [] → ∃ l1 a l2, l = l1 ++ a :: l2 ∧
      remove_min key l = .ok (l1 ++ l2) ∧
      (∀ b ∈ l, key a ≤ key b) ∧ ∀ b ∈ l1, key a < key b) := by
  constructor
  · rintro rfl; rfl
  · intro hne
    obtain ⟨x, t, rfl⟩ := List.exists_cons_of_ne_nil hne
    rcases removeMinGo_spec key t 0 (key x) 1 with ⟨hEq, hAll⟩ |
      ⟨u, y, v, ht, hEq, hlt, hu, hv⟩
    · refine ⟨[], x, t, by simp, ?_, ?_, by simp⟩
      · simp [remove_min, hEq]
      · intro b hb
        rcases List.mem_cons.mp hb with rfl | hb'
        · exact le_refl _
        · exact hAll b hb'
    · refine ⟨x :: u, y, v, by simp [ht], ?_, ?_, ?_⟩
      · rw [remove_min, hEq, ht]
        rw [show (1 : Nat) + u.length = u.length + 1 by omega]
        rw [List.eraseIdx_cons_succ, eraseIdx_append_middle]
        simp
      · intro b hb
        rcases List.mem_cons.mp hb with rfl | hb'
        · exact le_of_lt hlt
        · rw [ht] at hb'
          rcases List.mem_append.mp hb' with hbu | hbyv
          · exact le_of_lt (hu b hbu)
          · rcases List.mem_cons.mp hbyv with rfl | hbv
            · exact le_refl _
            · exact hv b hbv
      · intro b hb
        rcases List.mem_cons.mp hb with rfl | hb'
        · exact hlt
        · exact hu b hb'

/-- C10 applied at a concrete input: removing the minimum of `[3, 1, 2]`. -/
theorem C10_witness :
    (([3, 1, 2] : List Nat) ≠ []) ∧
    ∃ l1 a l2, ([3, 1, 2] : List Nat) = l1 ++ a :: l2 ∧
      remove_min (fun v : Nat => v) [3, 1, 2] = .ok (l1 ++ l2) ∧
      (∀ b ∈ ([3, 1, 2] : List Nat), (fun v : Nat => v) a ≤ (fun v : Nat => v) b) ∧
      ∀ b ∈ l1, (fun v : Nat => v) a < (fun v : Nat => v) b :=
  ⟨by decide, (C10_remove_min (fun v : Nat => v) [3, 1, 2]).2 (by decide)⟩

theorem is_sorted_iff_pairwise (key : α → κ) (l : List α) :
    is_sorted key l ↔ l.Pairwise (fun a b => key a ≤ key b) := by
  haveI : IsTrans α (fun a b => key a ≤ key b) := ⟨fun _ _ _ => le_trans⟩
  exact List.chain'_iff_pairwise

theorem merge_perm (key : α → κ) :
    ∀ l1 l2 : List α, (merge key l1 l2).Perm (l1 ++ l2)
  | [], l2 => by simp [merge]
  | x :: t1, [] => by simp [merge]
  | x :: t1, y :: t2 => by
    simp only [merge]
    by_cases h : key y < key x
    · rw [if_pos h]
      exact ((merge_perm key (x :: t1) t2).cons y).trans List.perm_middle.symm
    · rw [if_neg h]
      exact (merge_perm key t1 (y :: t2)).cons x
termination_by l1 l2 => l1.length + l2.length

theorem merge_sorted (key : α → κ) :
    ∀ l1 l2 : List α, l1.Pairwise (fun a b => key a ≤ key b) →
      l2.Pairwise (fun a b => key a ≤ key b) →
      (merge key l1 l2).Pairwise (fun a b => key a ≤ key b)
  | [], l2, _, h2 => by simpa [merge] using h2
  | x :: t1, [], h1, _ => by simpa [merge] using h1
  | x :: t1, y :: t2, h1, h2 => by
    simp only [merge]
    by_cases h : key y < key x
    · rw [if_pos h, List.pairwise_cons]
      refine ⟨?_, merge_sorted key (x :: t1) t2 h1 h2.of_cons⟩
      intro z hz
      rcases List.mem_append.mp ((merge_perm key (x :: t1) t2).subset hz) with
        hz1 | hz2
      · rcases List.mem_cons.mp hz1 with rfl | hz1'
        · exact le_of_lt h
        · exact le_trans (le_of_lt h) (List.rel_of_pairwise_cons h1 hz1')
      · exact List.rel_of_pairwise_cons h2 hz2
    · rw [if_neg h, List.pairwise_cons]
      refine ⟨?_, merge_sorted key t1 (y :: t2) h1.of_cons h2⟩
      intro z hz
      rcases List.mem_append.mp ((merge_perm key t1 (y :: t2)).subset hz) with
        hz1 | hz2
      · exact List.rel_of_pairwise_cons h1 hz1
      · rcases List.mem_cons.mp hz2 with rfl | hz2'
        · exact le_of_not_lt h
        · exact le_trans (le_of_not_lt h) (List.rel_of_pairwise_cons h2 hz2')
termination_by l1 l2 => l1.length + l2.length

theorem merge_stable (key : β → κ) :
    ∀ l1 l2 : List (Nat × β),
      l1.Pairwise (fun a b => tagKey key a ≤ tagKey key b) →
      l2.Pairwise (fun a b => tagKey key a ≤ tagKey key b) →
      l1.Pairwise (stableTag key) → l2.Pairwise (stableTag key) →
      (∀ a ∈ l1, ∀ b ∈ l2, stableTag key a b) →
      (merge (tagKey key) l1 l2).Pairwise (stableTag key)
  | [], l2, _, _, _, s2, _ => by simpa [merge] using s2
  | x :: t1, [], _, _, s1, _, _ => by simpa [merge] using s1
  | x :: t1, y :: t2, h1, h2, s1, s2, cross => by
    simp only [merge]
    by_cases h : tagKey key y < tagKey key x
    · rw [if_pos h, List.pairwise_cons]
      refine ⟨?_, merge_stable key (x :: t1) t2 h1 h2.of_cons s1 s2.of_cons
        fun a ha b hb => cross a ha b (List.mem_cons_of_mem y hb)⟩
      intro z hz hkey
      rcases List.mem_append.mp ((merge_perm (tagKey key) (x :: t1) t2).subset
        hz) with hz1 | hz2
      · have hxz : tagKey key x ≤ tagKey key z := by
          rcases List.mem_cons.mp hz1 with rfl | hz1'
          · exact le_refl _
          · exact List.rel_of_pairwise_cons h1 hz1'
        exact absurd hkey (ne_of_lt (lt_of_lt_of_le h hxz))
      · exact List.rel_of_pairwise_cons s2 hz2 hkey
    · rw [if_neg h, List.pairwise_cons]
      refine ⟨?_, merge_stable key t1 (y :: t2) h1.of_cons h2 s1.of_cons s2
        fun a ha b hb => cross a (List.mem_cons_of_mem x ha) b hb⟩
      intro z hz hkey
      rcases List.mem_append.mp ((merge_perm (tagKey key) t1 (y :: t2)).subset
        hz) with hz1 | hz2
      · exact List.rel_of_pairwise_cons s1 hz1 hkey
      · exact cross x (List.mem_cons_self x t1) z hz2 hkey
termination_by l1 l2 => l1.length + l2.length

theorem insertLE_perm (key : α → κ) (x : α) (l : List α) :
    (insertLE key x l).Perm (x :: l) := by
  induction l with
  | nil => exact List.Perm.refl _
  | cons y t ih =>
    simp only [insertLE]
    by_cases h : key y ≤ key x
    · rw [if_pos h]
      exact (ih.cons y).trans (List.Perm.swap x y t)
    · rw [if_neg h]

theorem insertLT_perm (key : α → κ) (x : α) (l : List α) :
    (insertLT key x l).Perm (x :: l) := by
  induction l with
  | nil => exact List.Perm.refl _
  | cons y t ih =>
    simp only [insertLT]
    by_cases h : key y < key x
    · rw [if_pos h]
      exact (ih.cons y).trans (List.Perm.swap x y t)
    · rw [if_neg h]

theorem insertAlt_perm (key : α → κ) (x : α) (l : List α) :
    (insertAlt key x l).Perm (x :: l) := by
  induction l with
  | nil => exact List.Perm.refl _
  | cons y t ih =>
    simp only [insertAlt]
    by_cases h : key x < key y
    · rw [if_pos h]
      exact (ih.cons y).trans (List.Perm.swap x y t)
    · rw [if_neg h]

theorem insertLE_sorted (key : α → κ) (x : α) (l : List α)
    (hl : l.Pairwise (fun a b => key a ≤ key b)) :
    (insertLE key x l).Pairwise (fun a b => key a ≤ key b) := by
  induction l with
  | nil => exact List.pairwise_singleton _ x
  | cons y t ih =>
    rw [List.pairwise_cons] at hl
    simp only [insertLE]
    by_cases h : key y ≤ key x
    · rw [if_pos h, List.pairwise_cons]
      refine ⟨?_, ih hl.2⟩
      intro z hz
      rcases List.mem_cons.mp ((insertLE_perm key x t).subset hz) with rfl | hz'
      · exact h
      · exact hl.1 z hz'
    · rw [if_neg h, List.pairwise_cons]
      refine ⟨?_, List.pairwise_cons.mpr hl⟩
      intro z hz
      rcases List.mem_cons.mp hz with rfl | hz'
      · exact le_of_not_le h
      · exact le_trans (le_of_not_le h) (hl.1 z hz')

theorem insertLT_sorted (key : α → κ) (x : α) (l : List α)
    (hl : l.Pairwise (fun a b => key a ≤ key b)) :
    (insertLT key x l).Pairwise (fun a b => key a ≤ key b) := by
  induction l with
  | nil => exact List.pairwise_singleton _ x
  | cons y t ih =>
    rw [List.pairwise_cons] at hl
    simp only [insertLT]
    by_cases h : key y < key x
    · rw [if_pos h, List.pairwise_cons]
      refine ⟨?_, ih hl.2⟩
      intro z hz
      rcases List.mem_cons.mp ((insertLT_perm key x t).subset hz) with rfl | hz'
      · exact le_of_lt h
      · exact hl.1 z hz'
    · rw [if_neg h, List.pairwise_cons]
      refine ⟨?_, List.pairwise_cons.mpr hl⟩
      intro z hz
      rcases List.mem_cons.mp hz with rfl | hz'
      · exact le_of_not_lt h
      · exact le_trans (le_of_not_lt h) (hl.1 z hz')

theorem insertAlt_sorted (key : α → κ) (x : α) (l : List α)
    (hl : l.Pairwise (fun a b => key b ≤ key a)) :
    (insertAlt key x l).Pairwise (fun a b => key b ≤ key a) := by
  induction l with
  | nil => exact List.pairwise_singleton _ x
  | cons y t ih =>
    rw [List.pairwise_cons] at hl
    simp only [insertAlt]
    by_cases h : key x < key y
    · rw [if_pos h, List.pairwise_cons]
      refine ⟨?_, ih hl.2⟩
      intro z hz
      rcases List.mem_cons.mp ((insertAlt_perm key x t).subset hz) with rfl | hz'
      · exact le_of_lt h
      · exact hl.1 z hz'
    · rw [if_neg h, List.pairwise_cons]
      refine ⟨?_, List.pairwise_cons.mpr hl⟩
      intro z hz
      rcases List.mem_cons.mp hz with rfl | hz'
      · exact le_of_not_lt h
      · exact le_trans (hl.1 z hz') (le_of_not_lt h)

theorem insertLE_stable (key : β → κ) (x : Nat × β) (l : List (Nat × β))
    (hs : l.Pairwise (fun a b => tagKey key a ≤ tagKey key b))
    (hst : l.Pairwise (stableTag key)) (htags : ∀ a ∈ l, a.1 < x.1) :
    (insertLE (tagKey key) x l).Pairwise (stableTag key) := by
  induction l with
  | nil => exact List.pairwise_singleton _ x
  | cons y t ih =>
    rw [List.pairwise_cons] at hs hst
    simp only [insertLE]
    by_cases h : tagKey key y ≤ tagKey key x
    · rw [if_pos h, List.pairwise_cons]
      refine ⟨?_, ih hs.2 hst.2
        fun a ha => htags a (List.mem_cons_of_mem y ha)⟩
      intro z hz hkey
      rcases List.mem_cons.mp ((insertLE_perm (tagKey key) x t).subset hz)
        with rfl | hz'
      · exact htags y (List.mem_cons_self y t)
      · exact hst.1 z hz' hkey
    · rw [if_neg h, List.pairwise_cons]
      refine ⟨?_, List.pairwise_cons.mpr hst⟩
      intro z hz hkey
      have hyz : tagKey key y ≤ tagKey key z := by
        rcases List.mem_cons.mp hz with rfl | hz'
        · exact le_refl _
        · exact hs.1 z hz'
      exact absurd hkey (ne_of_lt (lt_of_lt_of_le (lt_of_not_le h) hyz))

theorem insertLT_anti (key : β → κ) (x : Nat × β) (l : List (Nat × β))
    (hs : l.Pairwise (fun a b => tagKey key a ≤ tagKey key b))
    (hst : l.Pairwise (antiTag key)) (htags : ∀ a ∈ l, a.1 < x.1) :
    (insertLT (tagKey key) x l).Pairwise (antiTag key) := by
  induction l with
  | nil => exact List.pairwise_singleton _ x
  | cons y t ih =>
    rw [List.pairwise_cons] at hs hst
    simp only [insertLT]
    by_cases h : tagKey key y < tagKey key x
    · rw [if_pos h, List.pairwise_cons]
      refine ⟨?_, ih hs.2 hst.2
        fun a ha => htags a (List.mem_cons_of_mem y ha)⟩
      intro z hz hkey
      rcases List.mem_cons.mp ((insertLT_perm (tagKey key) x t).subset hz)
        with rfl | hz'
      · exact absurd hkey (ne_of_lt h)
      · exact hst.1 z hz' hkey
    · rw [if_neg h, List.pairwise_cons]
      refine ⟨?_, List.pairwise_cons.mpr hst⟩
      intro z hz _
      rcases List.mem_cons.mp hz with rfl | hz'
      · exact htags z hz
      · exact htags z (List.mem_cons_of_mem _ hz')

theorem insertAlt_anti (key : β → κ) (x : Nat × β) (l : List (Nat × β))
    (hs : l.Pairwise (fun a b => tagKey key b ≤ tagKey key a))
    (hst : l.Pairwise (antiTag key)) (htags : ∀ a ∈ l, a.1 < x.1) :
    (insertAlt (tagKey key) x l).Pairwise (antiTag key) := by
  induction l with
  | nil => exact List.pairwise_singleton _ x
  | cons y t ih =>
    rw [List.pairwise_cons] at hs hst
    simp only [insertAlt]
    by_cases h : tagKey key x < tagKey key y
    · rw [if_pos h, List.pairwise_cons]
      refine ⟨?_, ih hs.2 hst.2
        fun a ha => htags a (List.mem_cons_of_mem y ha)⟩
      intro z hz hkey
      rcases List.mem_cons.mp ((insertAlt_perm (tagKey key) x t).subset hz)
        with rfl | hz'
      · exact absurd hkey (ne_of_gt h)
      · exact hst.1 z hz' hkey
    · rw [if_neg h, List.pairwise_cons]
      refine ⟨?_, List.pairwise_cons.mpr hst⟩
      intro z hz _
      rcases List.mem_cons.mp hz with rfl | hz'
      · exact htags z hz
      · exact htags z (List.mem_cons_of_mem _ hz')

theorem insertion_sortGo_sorted_perm (key : α → κ) :
    ∀ rest out, out.Pairwise (fun a b => key a ≤ key b) →
      (insertion_sortGo key out rest).Pairwise (fun a b => key a ≤ key b) ∧
      (insertion_sortGo key out rest).Perm (out ++ rest) := by
  intro rest
  induction rest with
  | nil => intro out h; exact ⟨h, by simp [insertion_sortGo]⟩
  | cons x r ih =>
    intro out h
    simp only [insertion_sortGo]
    obtain ⟨hs, hp⟩ := ih (insertLE key x out) (insertLE_sorted key x out h)
    refine ⟨hs, hp.trans ?_⟩
    exact (((insertLE_perm key x out).append_right r).trans
      List.perm_middle.symm)

theorem insertion_sort_antistableGo_sorted_perm (key : α → κ) :
    ∀ rest out, out.Pairwise (fun a b => key a ≤ key b) →
      (insertion_sort_antistableGo key out rest).Pairwise
        (fun a b => key a ≤ key b) ∧
      (insertion_sort_antistableGo key out rest).Perm (out ++ rest) := by
  intro rest
  induction rest with
  | nil => intro out h; exact ⟨h, by simp [insertion_sort_antistableGo]⟩
  | cons x r ih =>
    intro out h
    simp only [insertion_sort_antistableGo]
    obtain ⟨hs, hp⟩ := ih (insertLT key x out) (insertLT_sorted key x out h)
    refine ⟨hs, hp.trans ?_⟩
    exact (((insertLT_perm key x out).append_right r).trans
      List.perm_middle.symm)

theorem insertion_sort_altGo_sorted_perm (key : α → κ) :
    ∀ rest out, out.Pairwise (fun a b => key b ≤ key a) →
      (insertion_sort_altGo key out rest).Pairwise
        (fun a b => key b ≤ key a) ∧
      (insertion_sort_altGo key out rest).Perm (out ++ rest) := by
  intro rest
  induction rest with
  | nil => intro out h; exact ⟨h, by simp [insertion_sort_altGo]⟩
  | cons x r ih =>
    intro out h
    simp only [insertion_sort_altGo]
    obtain ⟨hs, hp⟩ := ih (insertAlt key x out) (insertAlt_sorted key x out h)
    refine ⟨hs, hp.trans ?_⟩
    exact (((insertAlt_perm key x out).append_right r).trans
      List.perm_middle.symm)

theorem insertion_sortGo_stable (key : β → κ) :
    ∀ rest out, out.Pairwise (fun a b => tagKey key a ≤ tagKey key b) →
      out.Pairwise (stableTag key) →
      (∀ a ∈ out, ∀ b ∈ rest, a.1 < b.1) →
      rest.Pairwise (fun a b => a.1 < b.1) →
      (insertion_sortGo (tagKey key) out rest).Pairwise (stableTag key) := by
  intro rest
  induction rest with
  | nil => intro out _ hst _ _; simpa [insertion_sortGo] using hst
  | cons x r ih =>
    intro out hs hst hcross htags
    rw [List.pairwise_cons] at htags
    simp only [insertion_sortGo]
    refine ih (insertLE (tagKey key) x out)
      (insertLE_sorted (tagKey key) x out hs)
      (insertLE_stable key x out hs hst
        fun a ha => hcross a ha x (List.mem_cons_self x r))
      ?_ htags.2
    intro a ha b hb
    rcases List.mem_cons.mp ((insertLE_perm (tagKey key) x out).subset ha)
      with rfl | ha'
    · exact htags.1 b hb
    · exact hcross a ha' b (List.mem_cons_of_mem x hb)

theorem insertion_sort_antistableGo_anti (key : β → κ) :
    ∀ rest out, out.Pairwise (fun a b => tagKey key a ≤ tagKey key b) →
      out.Pairwise (antiTag key) →
      (∀ a ∈ out, ∀ b ∈ rest, a.1 < b.1) →
      rest.Pairwise (fun a b => a.1 < b.1) →
      (insertion_sort_antistableGo (tagKey key) out rest).Pairwise
        (antiTag key) := by
  intro rest
  induction rest with
  | nil => intro out _ hst _ _; simpa [insertion_sort_antistableGo] using hst
  | cons x r ih =>
    intro out hs hst hcross htags
    rw [List.pairwise_cons] at htags
    simp only [insertion_sort_antistableGo]
    refine ih (insertLT (tagKey key) x out)
      (insertLT_sorted (tagKey key) x out hs)
      (insertLT_anti key x out hs hst
        fun a ha => hcross a ha x (List.mem_cons_self x r))
      ?_ htags.2
    intro a ha b hb
    rcases List.mem_cons.mp ((insertLT_perm (tagKey key) x out).subset ha)
      with rfl | ha'
    · exact htags.1 b hb
    · exact hcross a ha' b (List.mem_cons_of_mem x hb)

theorem insertion_sort_altGo_anti (key : β → κ) :
    ∀ rest out, out.Pairwise (fun a b => tagKey key b ≤ tagKey key a) →
      out.Pairwise (antiTag key) →
      (∀ a ∈ out, ∀ b ∈ rest, a.1 < b.1) →
      rest.Pairwise (fun a b => a.1 < b.1) →
      (insertion_sort_altGo (tagKey key) out rest).Pairwise (antiTag key) := by
  intro rest
  induction rest with
  | nil => intro out _ hst _ _; simpa [insertion_sort_altGo] using hst
  | cons x r ih =>
    intro out hs hst hcross htags
    rw [List.pairwise_cons] at htags
    simp only [insertion_sort_altGo]
    refine ih (insertAlt (tagKey key) x out)
      (insertAlt_sorted (tagKey key) x out hs)
      (insertAlt_anti key x out hs hst
        fun a ha => hcross a ha x (List.mem_cons_self x r))
      ?_ htags.2
    intro a ha b hb
    rcases List.mem_cons.mp ((insertAlt_perm (tagKey key) x out).subset ha)
      with rfl | ha'
    · exact htags.1 b hb
    · exact hcross a ha' b (List.mem_cons_of_mem x hb)

theorem mergesort_sorted_perm (key : α → κ) :
    ∀ l : List α,
      (mergesort key l).Pairwise (fun a b => key a ≤ key b) ∧
      (mergesort key l).Perm l
  | [] => ⟨by simp [mergesort], by simp [mergesort]⟩
  | [x] => ⟨by simp [mergesort, List.pairwise_singleton],
      by simp [mergesort]⟩
  | x :: y :: t => by
    have h1 := split_fst_length (x :: y :: t)
    have h2 := split_snd_length (x :: y :: t)
    have ih1 := mergesort_sorted_perm key (split (x :: y :: t)).1
    have ih2 := mergesort_sorted_perm key (split (x :: y :: t)).2
    refine ⟨?_, ?_⟩
    · simp only [mergesort]
      exact merge_sorted key _ _ ih1.1 ih2.1
    · simp only [mergesort]
      refine (merge_perm key _ _).trans ?_
      refine (ih1.2.append ih2.2).trans ?_
      rw [split_append]
termination_by l => l.length
decreasing_by
  · simp only [List.length_cons] at *; omega
  · simp only [List.length_cons] at *; omega

theorem mergesort_stable (key : β → κ) :
    ∀ l : List (Nat × β), l.Pairwise (fun a b => a.1 < b.1) →
      (mergesort (tagKey key) l).Pairwise (stableTag key)
  | [], _ => by simp [mergesort]
  | [x], _ => by simp [mergesort, List.pairwise_singleton]
  | x :: y :: t, htags => by
    have h1 := split_fst_length (x :: y :: t)
    have h2 := split_snd_length (x :: y :: t)
    have hdecomp :
        ((split (x :: y :: t)).1 ++ (split (x :: y :: t)).2).Pairwise
          (fun a b => a.1 < b.1) := by
      rw [split_append]; exact htags
    rw [List.pairwise_append] at hdecomp
    have ihs1 := mergesort_sorted_perm (tagKey key) (split (x :: y :: t)).1
    have ihs2 := mergesort_sorted_perm (tagKey key) (split (x :: y :: t)).2
    have ih1 := mergesort_stable key (split (x :: y :: t)).1 hdecomp.1
    have ih2 := mergesort_stable key (split (x :: y :: t)).2 hdecomp.2.1
    simp only [mergesort]
    refine merge_stable key _ _ ihs1.1 ihs2.1 ih1 ih2 ?_
    intro a ha b hb _
    exact hdecomp.2.2 a (ihs1.2.subset ha) b (ihs2.2.subset hb)
termination_by l => l.length
decreasing_by
  · simp only [List.length_cons] at *; omega
  · simp only [List.length_cons] at *; omega

theorem bupass_small (key : α → κ) (delta : Nat) (l : List α)
    (hδ : delta ≠ 0) (h : l.length ≤ delta) : bupass key delta l = l := by
  rw [bupass, if_neg hδ]
  by_cases he : l.isEmpty
  · rw [if_pos he]
    exact (List.isEmpty_iff.mp he).symm
  · rw [if_neg he, if_pos h]

theorem bupass_two (key : α → κ) (delta : Nat) (l : List α)
    (hδ : delta ≠ 0) (h1 : delta < l.length) (h2 : l.length ≤ 2 * delta) :
    bupass key delta l = merge key (l.take delta) (l.drop delta) := by
  rw [bupass, if_neg hδ, if_neg ?_, if_neg (by omega), if_pos h2]
  intro he
  rw [List.isEmpty_iff.mp he] at h1
  simp at h1

theorem bupass_step (key : α → κ) (delta : Nat) (l : List α)
    (hδ : delta ≠ 0) (h : 2 * delta < l.length) :
    bupass key delta l =
      merge key (l.take delta) ((l.drop delta).take delta) ++
        bupass key delta ((l.drop delta).drop delta) := by
  rw [bupass, if_neg hδ, if_neg ?_, if_neg (by omega), if_neg (by omega)]
  intro he
  rw [List.isEmpty_iff.mp he] at h
  simp at h

theorem bupass_perm (key : α → κ) (delta : Nat) (l : List α) :
    (bupass key delta l).Perm l := by
  by_cases hδ : delta = 0
  · rw [bupass, if_pos hδ]
  · rcases Nat.lt_or_ge delta l.length with hlen | hlen
    · rcases Nat.lt_or_ge (2 * delta) l.length with hlen2 | hlen2
      · rw [bupass_step key delta l hδ hlen2]
        have ih := bupass_perm key delta ((l.drop delta).drop delta)
        refine ((merge_perm key _ _).append ih).trans ?_
        rw [List.append_assoc, List.take_append_drop, List.take_append_drop]
      · rw [bupass_two key delta l hδ hlen hlen2]
        refine (merge_perm key _ _).trans ?_
        rw [List.take_append_drop]
    · rw [bupass_small key delta l hδ hlen]
termination_by l.length
decreasing_by simp only [List.length_drop]; omega

theorem BlockSorted_block0 (key : α → κ) (delta : Nat) (l : List α)
    (hB : BlockSorted key delta l) :
    (l.take delta).Pairwise (fun a b => key a ≤ key b) := by
  have h := hB 0
  simpa using h

theorem BlockSorted_block1 (key : α → κ) (delta : Nat) (l : List α)
    (hB : BlockSorted key delta l) :
    ((l.drop delta).take delta).Pairwise (fun a b => key a ≤ key b) := by
  have h := hB 1
  simpa using h

theorem BlockSorted_drop2 (key : α → κ) (delta : Nat) (l : List α)
    (hB : BlockSorted key delta l) :
    BlockSorted key delta ((l.drop delta).drop delta) := by
  intro j
  rw [List.drop_drop, List.drop_drop]
  have h := hB (j + 2)
  have heq : delta * (j + 2) = delta + (delta + delta * j) := by ring
  rw [heq] at h
  exact h

theorem BlockSorted_all (key : α → κ) (delta : Nat) (l : List α)
    (hB : BlockSorted key delta l) (h : l.length ≤ delta) :
    l.Pairwise (fun a b => key a ≤ key b) := by
  have h0 := BlockSorted_block0 key delta l hB
  rwa [List.take_of_length_le h] at h0

theorem blockSorted_of_le (key : α → κ) (delta : Nat) (l : List α)
    (hs : l.Pairwise (fun a b => key a ≤ key b)) (h : l.length ≤ delta) :
    BlockSorted key delta l := by
  intro i
  cases i with
  | zero =>
    simp only [Nat.mul_zero, List.drop_zero]
    exact List.Pairwise.sublist (List.take_sublist delta l) hs
  | succ j =>
    rw [List.drop_eq_nil_of_le (by
      have : delta ≤ delta * (j + 1) := Nat.le_mul_of_pos_right delta (by omega)
      omega)]
    simp

theorem merge_block_length (key : α → κ) (delta : Nat) (l : List α)
    (h : 2 * delta < l.length) :
    (merge key (l.take delta) ((l.drop delta).take delta)).length =
      2 * delta := by
  have hp := (merge_perm key (l.take delta) ((l.drop delta).take delta)
    ).length_eq
  rw [hp, List.length_append, List.length_take, List.length_take,
    List.length_drop]
  omega

theorem bupass_blocks (key : α → κ) (delta : Nat) (l : List α)
    (hδ : delta ≠ 0) (hB : BlockSorted key delta l) :
    BlockSorted key (2 * delta) (bupass key delta l) := by
  rcases Nat.lt_or_ge delta l.length with hlen | hlen
  · rcases Nat.lt_or_ge (2 * delta) l.length with hlen2 | hlen2
    · rw [bupass_step key delta l hδ hlen2]
      have ih := bupass_blocks key delta ((l.drop delta).drop delta) hδ
        (BlockSorted_drop2 key delta l hB)
      have hm : (merge key (l.take delta) ((l.drop delta).take delta)).length
          = 2 * delta := merge_block_length key delta l hlen2
      intro i
      cases i with
      | zero =>
        simp only [Nat.mul_zero, List.drop_zero]
        rw [List.take_left' hm]
        exact merge_sorted key _ _ (BlockSorted_block0 key delta l hB)
          (BlockSorted_block1 key delta l hB)
      | succ j =>
        have heq : 2 * delta * (j + 1) = 2 * delta + 2 * delta * j := by ring
        rw [heq, ← List.drop_drop, List.drop_left' hm]
        exact ih j
    · rw [bupass_two key delta l hδ hlen hlen2]
      have hsorted := merge_sorted key (l.take delta) (l.drop delta)
        (BlockSorted_block0 key delta l hB) (by
          have h1 := BlockSorted_block1 key delta l hB
          rwa [List.take_of_length_le (by simp; omega)] at h1)
      refine blockSorted_of_le key (2 * delta) _ hsorted ?_
      rw [(merge_perm key _ _).length_eq, List.length_append,
        List.length_take, List.length_drop]
      omega
  · rw [bupass_small key delta l hδ hlen]
    exact blockSorted_of_le key (2 * delta) l
      (BlockSorted_all key delta l hB hlen) (by omega)
termination_by l.length
decreasing_by simp only [List.length_drop]; omega

theorem bupass_stable (key : β → κ) (delta : Nat) (l : List (Nat × β))
    (hδ : delta ≠ 0) (hB : BlockSorted (tagKey key) delta l)
    (hP : l.Pairwise (stableTag key)) :
    (bupass (tagKey key) delta l).Pairwise (stableTag key) := by
  rcases Nat.lt_or_ge delta l.length with hlen | hlen
  · have hP1 : (l.take delta ++ l.drop delta).Pairwise (stableTag key) := by
      rw [List.take_append_drop]; exact hP
    rw [List.pairwise_append] at hP1
    rcases Nat.lt_or_ge (2 * delta) l.length with hlen2 | hlen2
    · rw [bupass_step _ delta l hδ hlen2]
      have hP2 : ((l.drop delta).take delta ++
          (l.drop delta).drop delta).Pairwise (stableTag key) := by
        rw [List.take_append_drop]; exact hP1.2.1
      rw [List.pairwise_append] at hP2
      have ih := bupass_stable key delta ((l.drop delta).drop delta) hδ
        (BlockSorted_drop2 _ delta l hB) hP2.2.1
      rw [List.pairwise_append]
      refine ⟨?_, ih, ?_⟩
      · refine merge_stable key _ _ (BlockSorted_block0 _ delta l hB)
          (BlockSorted_block1 _ delta l hB) hP1.1 hP2.1 ?_
        intro a ha b hb
        exact hP1.2.2 a ha b ((List.take_sublist delta _).subset hb)
      · intro a ha c hc
        have ha' := (merge_perm (tagKey key) _ _).subset ha
        have hc' := (bupass_perm (tagKey key) delta _).subset hc
        rcases List.mem_append.mp ha' with ha1 | ha2
        · exact hP1.2.2 a ha1 c ((List.drop_sublist delta _).subset hc')
        · exact hP2.2.2 a ha2 c hc'
    · rw [bupass_two _ delta l hδ hlen hlen2]
      refine merge_stable key _ _ (BlockSorted_block0 _ delta l hB)
        (by
          have h1 := BlockSorted_block1 _ delta l hB
          rwa [List.take_of_length_le (by simp; omega)] at h1)
        hP1.1 hP1.2.1 hP1.2.2
  · rw [bupass_small _ delta l hδ hlen]
    exact hP
termination_by l.length
decreasing_by simp only [List.length_drop]; omega

theorem bumainGo_sorted_perm (key : α → κ) (n : Nat) (i : Nat) (l : List α)
    (hlen : l.length = n) (hB : BlockSorted key (2 ^ i) l) :
    (bumainGo key n i l).Pairwise (fun a b => key a ≤ key b) ∧
    (bumainGo key n i l).Perm l := by
  rw [bumainGo]
  by_cases h : 2 ^ i < n
  · rw [if_pos h]
    have hpow : (2 : Nat) ^ (i + 1) = 2 * 2 ^ i := by ring
    have hpos : (0 : Nat) < 2 ^ i := Nat.pos_pow_of_pos i (by omega)
    have ih := bumainGo_sorted_perm key n (i + 1) (bupass key (2 ^ i) l)
      (by rw [(bupass_perm key _ l).length_eq, hlen])
      (by rw [hpow]; exact bupass_blocks key (2 ^ i) l (by omega) hB)
    exact ⟨ih.1, ih.2.trans (bupass_perm key _ l)⟩
  · rw [if_neg h]
    exact ⟨BlockSorted_all key (2 ^ i) l hB (by omega), List.Perm.refl l⟩
termination_by n - 2 ^ i
decreasing_by
  have _h2 : 2 ^ i < 2 ^ (i + 1) := Nat.pow_lt_pow_succ (by omega)
  omega

theorem bumainGo_stable (key : β → κ) (n : Nat) (i : Nat)
    (l : List (Nat × β)) (hlen : l.length = n)
    (hB : BlockSorted (tagKey key) (2 ^ i) l)
    (hP : l.Pairwise (stableTag key)) :
    (bumainGo (tagKey key) n i l).Pairwise (stableTag key) := by
  rw [bumainGo]
  by_cases h : 2 ^ i < n
  · rw [if_pos h]
    have hpow : (2 : Nat) ^ (i + 1) = 2 * 2 ^ i := by ring
    have hpos : (0 : Nat) < 2 ^ i := Nat.pos_pow_of_pos i (by omega)
    exact bumainGo_stable key n (i + 1) (bupass (tagKey key) (2 ^ i) l)
      (by rw [(bupass_perm (tagKey key) _ l).length_eq, hlen])
      (by rw [hpow]; exact bupass_blocks (tagKey key) (2 ^ i) l (by omega) hB)
      (bupass_stable key (2 ^ i) l (by omega) hB hP)
  · rw [if_neg h]
    exact hP
termination_by n - 2 ^ i
decreasing_by
  have _h2 : 2 ^ i < 2 ^ (i + 1) := Nat.pow_lt_pow_succ (by omega)
  omega

theorem blockSorted_one (key : α → κ) (l : List α) : BlockSorted key 1 l := by
  intro i
  cases h : l.drop (1 * i) with
  | nil => simp
  | cons a t => simp [List.pairwise_singleton]

theorem mergesort_bottomup_sorted_perm (key : α → κ) (l : List α) :
    (mergesort_bottomup key l).Pairwise (fun a b => key a ≤ key b) ∧
    (mergesort_bottomup key l).Perm l := by
  have h := bumainGo_sorted_perm key l.length 0 l rfl
    (by simpa using blockSorted_one key l)
  exact h

theorem mergesort_bottomup_stable (key : β → κ) (l : List (Nat × β))
    (hT : l.Pairwise (fun a b => a.1 < b.1)) :
    (mergesort_bottomup (tagKey key) l).Pairwise (stableTag key) := by
  have h := bumainGo_stable key l.length 0 l rfl
    (by simpa using blockSorted_one (tagKey key) l)
    (hT.imp fun {a b} hab => show stableTag key a b from fun _ => hab)
  exact h

theorem insertion_sort_sorted_perm (key : α → κ) (l : List α) :
    is_sorted key (insertion_sort key l) ∧ (insertion_sort key l).Perm l := by
  obtain ⟨hs, hp⟩ := insertion_sortGo_sorted_perm key l [] List.Pairwise.nil
  exact ⟨(is_sorted_iff_pairwise key _).mpr hs, by simpa using hp⟩

theorem insertion_sort_antistable_sorted_perm (key : α → κ) (l : List α) :
    is_sorted key (insertion_sort_antistable key l) ∧
    (insertion_sort_antistable key l).Perm l := by
  obtain ⟨hs, hp⟩ :=
    insertion_sort_antistableGo_sorted_perm key l [] List.Pairwise.nil
  exact ⟨(is_sorted_iff_pairwise key _).mpr hs, by simpa using hp⟩

theorem insertion_sort_alt_sorted_perm (key : α → κ) (l : List α) :
    is_sorted key (insertion_sort_alt key l) ∧
    (insertion_sort_alt key l).Perm l := by
  obtain ⟨hs, hp⟩ := insertion_sort_altGo_sorted_perm key l [] List.Pairwise.nil
  constructor
  · rw [insertion_sort_alt, reverse_eq_reverse, is_sorted_iff_pairwise,
      List.pairwise_reverse]
    exact hs
  · rw [insertion_sort_alt, reverse_eq_reverse]
    exact (List.reverse_perm _).trans (by simpa using hp)

theorem mergesort_nil (key : α → κ) : mergesort key ([] : List α) = [] := by
  simp [mergesort]

theorem mergesort_single (key : α → κ) (x : α) : mergesort key [x] = [x] := by
  simp [mergesort]

theorem mergesort_bottomup_nil (key : α → κ) :
    mergesort_bottomup key ([] : List α) = [] := by
  rw [mergesort_bottomup, bumainGo, if_neg (by simp)]

theorem mergesort_bottomup_single (key : α → κ) (x : α) :
    mergesort_bottomup key [x] = [x] := by
  rw [mergesort_bottomup, bumainGo, if_neg (by simp)]

/-- Claim C1: every sorting variant returns a list that is non-decreasing by
the key and a permutation of the input values, and on inputs of zero or one
nodes each variant returns the input head unchanged. -/
theorem C1_sorts_sorted_perm (key : α → κ) (l : List α) :
    (is_sorted key (insertion_sort key l) ∧ (insertion_sort key l).Perm l) ∧
    (is_sorted key (insertion_sort_antistable key l) ∧
      (insertion_sort_antistable key l).Perm l) ∧
    (is_sorted key (insertion_sort_alt key l) ∧
      (insertion_sort_alt key l).Perm l) ∧
    (is_sorted key (mergesort key l) ∧ (mergesort key l).Perm l) ∧
    (is_sorted key (mergesort_bottomup key l) ∧
      (mergesort_bottomup key l).Perm l) ∧
    (insertion_sort key ([] : List α) = [] ∧
      insertion_sort_antistable key ([] : List α) = [] ∧
      insertion_sort_alt key ([] : List α) = [] ∧
      mergesort key ([] : List α) = [] ∧
      mergesort_bottomup key ([] : List α) = []) ∧
    ∀ x : α, insertion_sort key [x] = [x] ∧
      insertion_sort_antistable key [x] = [x] ∧
      insertion_sort_alt key [x] = [x] ∧
      mergesort key [x] = [x] ∧
      mergesort_bottomup key [x] = [x] := by
  refine ⟨insertion_sort_sorted_perm key l,
    insertion_sort_antistable_sorted_perm key l,
    insertion_sort_alt_sorted_perm key l,
    ⟨(is_sorted_iff_pairwise key _).mpr (mergesort_sorted_perm key l).1,
      (mergesort_sorted_perm key l).2⟩,
    ⟨(is_sorted_iff_pairwise key _).mpr
        (mergesort_bottomup_sorted_perm key l).1,
      (mergesort_bottomup_sorted_perm key l).2⟩,
    ⟨rfl, rfl, rfl, mergesort_nil key, mergesort_bottomup_nil key⟩,
    fun x => ⟨rfl, rfl, rfl, mergesort_single key x,
      mergesort_bottomup_single key x⟩⟩

theorem mem_enumFrom_le (n : Nat) (l : List β) :
    ∀ p ∈ List.enumFrom n l, n ≤ p.1 := by
  induction l generalizing n with
  | nil => simp [List.enumFrom]
  | cons x t ih =>
    intro p hp
    rw [show List.enumFrom n (x :: t) = (n, x) :: List.enumFrom (n + 1) t
      from rfl] at hp
    rcases List.mem_cons.mp hp with rfl | hp'
    · exact le_refl n
    · exact le_trans (by omega) (ih (n + 1) p hp')

theorem mem_enumFrom_lt (n : Nat) (l : List β) :
    ∀ p ∈ List.enumFrom n l, p.1 < n + l.length := by
  induction l generalizing n with
  | nil => simp [List.enumFrom]
  | cons x t ih =>
    intro p hp
    rw [show List.enumFrom n (x :: t) = (n, x) :: List.enumFrom (n + 1) t
      from rfl] at hp
    rcases List.mem_cons.mp hp with rfl | hp'
    · simp
    · have := ih (n + 1) p hp'
      simp only [List.length_cons]
      omega

theorem enumFrom_tagLT (n : Nat) (l : List β) :
    (List.enumFrom n l).Pairwise (fun a b => a.1 < b.1) := by
  induction l generalizing n with
  | nil => simp [List.enumFrom]
  | cons x t ih =>
    rw [show List.enumFrom n (x :: t) = (n, x) :: List.enumFrom (n + 1) t
      from rfl, List.pairwise_cons]
    exact ⟨fun p hp => lt_of_lt_of_le (Nat.lt_succ_self n)
      (mem_enumFrom_le (n + 1) t p hp), ih (n + 1)⟩

theorem enumFrom_key_sorted (key : β → κ) (n : Nat) (l : List β)
    (h : l.Pairwise (fun a b => key a ≤ key b)) :
    (List.enumFrom n l).Pairwise
      (fun a b => tagKey key a ≤ tagKey key b) := by
  have h2 : (List.map Prod.snd (List.enumFrom n l)).Pairwise
      (fun a b => key a ≤ key b) := by
    rw [List.enumFrom_map_snd]; exact h
  rw [List.pairwise_map] at h2
  exact h2

/-- Claim C2: on input tagged with original indices (so that the element
type carries node identity), `insertion_sort`, `insertion_sort_alt`,
`mergesort` and `mergesort_bottomup` keep equal-keyed elements in increasing
tag order (stable), while `insertion_sort_antistable` keeps them in
decreasing tag order (reversed). -/
theorem C2_stability (key : β → κ) (l : List β) :
    (insertion_sort (tagKey key) l.enum).Pairwise (stableTag key) ∧
    (insertion_sort_antistable (tagKey key) l.enum).Pairwise (antiTag key) ∧
    (insertion_sort_alt (tagKey key) l.enum).Pairwise (stableTag key) ∧
    (mergesort (tagKey key) l.enum).Pairwise (stableTag key) ∧
    (mergesort_bottomup (tagKey key) l.enum).Pairwise (stableTag key) := by
  have htags : l.enum.Pairwise (fun a b => a.1 < b.1) := enumFrom_tagLT 0 l
  refine ⟨?_, ?_, ?_, ?_, ?_⟩
  · exact insertion_sortGo_stable key l.enum [] List.Pairwise.nil
      List.Pairwise.nil (by simp) htags
  · exact insertion_sort_antistableGo_anti key l.enum [] List.Pairwise.nil
      List.Pairwise.nil (by simp) htags
  · rw [insertion_sort_alt, reverse_eq_reverse, List.pairwise_reverse]
    have h := insertion_sort_altGo_anti key l.enum [] List.Pairwise.nil
      List.Pairwise.nil (by simp) htags
    exact h.imp fun {a b} hab => fun hk => hab hk.symm
  · exact mergesort_stable key l.enum htags
  · exact mergesort_bottomup_stable key l.enum htags

/-- Claim C4: merging two individually non-decreasing lists yields a single
non-decreasing list containing exactly the nodes of both inputs, with ties
resolved in favour of the first list (expressed on index-tagged nodes whose
first-list tags all precede the second-list tags); the concrete scenario of
the specification evaluates as stated. -/
theorem C4_merge (key : α → κ) (l1 l2 : List α)
    (h1 : is_sorted key l1) (h2 : is_sorted key l2) :
    is_sorted key (merge key l1 l2) ∧
    (merge key l1 l2).Perm (l1 ++ l2) ∧
    (merge (tagKey key) (List.enumFrom 0 l1)
      (List.enumFrom l1.length l2)).Pairwise (stableTag key) ∧
    merge (fun v : Nat => v) [1, 3, 4, 5, 7, 15, 15, 28]
        [4, 5, 6, 7, 8, 9, 10, 11, 12, 13, 14, 15, 16, 17] =
      [1, 3, 4, 4, 5, 5, 6, 7, 7, 8, 9, 10, 11, 12, 13, 14, 15, 15, 15, 16,
        17, 28] := by
  rw [is_sorted_iff_pairwise] at h1 h2
  refine ⟨?_, merge_perm key l1 l2, ?_, ?_⟩
  · rw [is_sorted_iff_pairwise]
    exact merge_sorted key l1 l2 h1 h2
  · refine merge_stable key _ _ (enumFrom_key_sorted key 0 l1 h1)
      (enumFrom_key_sorted key l1.length l2 h2)
      ((enumFrom_tagLT 0 l1).imp fun {a b} hab => fun _ => hab)
      ((enumFrom_tagLT l1.length l2).imp fun {a b} hab => fun _ => hab) ?_
    intro a ha b hb _
    have hlt := mem_enumFrom_lt 0 l1 a ha
    have hle := mem_enumFrom_le l1.length l2 b hb
    omega
  · simp [merge]

/-- C4 applied at a concrete input: merging the sorted lists `[1, 3]` and
`[2, 3]` with the identity key. -/
theorem C4_witness :
    is_sorted (fun v : Nat => v) [1, 3] ∧ is_sorted (fun v : Nat => v) [2, 3] ∧
    (is_sorted (fun v : Nat => v)
        (merge (fun v : Nat => v) [1, 3] [2, 3]) ∧
      (merge (fun v : Nat => v) [1, 3] [2, 3]).Perm ([1, 3] ++ [2, 3]) ∧
      (merge (tagKey (fun v : Nat => v))
        (List.enumFrom 0 [1, 3])
        (List.enumFrom (List.length [1, 3]) [2, 3])).Pairwise
        (stableTag (fun v : Nat => v)) ∧
      merge (fun v : Nat => v) [1, 3, 4, 5, 7, 15, 15, 28]
          [4, 5, 6, 7, 8, 9, 10, 11, 12, 13, 14, 15, 16, 17] =
        [1, 3, 4, 4, 5, 5, 6, 7, 7, 8, 9, 10, 11, 12, 13, 14, 15, 15, 15, 16,
          17, 28]) :=
  ⟨by decide, by decide,
    C4_merge (fun v : Nat => v) [1, 3] [2, 3] (by decide) (by decide)⟩

theorem floyd_chain_false (L : Nat) :
    ∀ fuel s f, s < f → f < L → L ≤ f + fuel + 1 →
      floydGo (chainNext L) (some s) (some f) (fuel + 1) = some false := by
  intro fuel
  induction fuel with
  | zero =>
    intro s f hsf hfL hfuel
    have hf1 : ¬ (f + 1 < L) := by omega
    simp [floydGo, chainNext, hf1]
  | succ fuel' ih =>
    intro s f hsf hfL hfuel
    by_cases hf1 : f + 1 < L
    · have hs1 : s + 1 < L := by omega
      have e1 : chainNext L f = some (f + 1) := by simp [chainNext, hf1]
      have e2 : chainNext L s = some (s + 1) := by simp [chainNext, hs1]
      by_cases hf2 : f + 2 < L
      · have e3 : chainNext L (f + 1) = some (f + 2) := by
          simp [chainNext]; omega
        simp only [floydGo, e1, e2, e3, Option.some_bind]
        rw [if_neg (by simp; omega)]
        exact ih (s + 1) (f + 2) (by omega) hf2 (by omega)
      · have e3 : chainNext L (f + 1) = none := by
          simp [chainNext]; omega
        simp only [floydGo, e1, e2, e3, Option.some_bind]
        rw [if_neg (by simp)]
    · simp [floydGo, chainNext, hf1]

theorem has_cycle_chain_false (L fuel : Nat) (h : L + 2 ≤ fuel) :
    has_cycle (chainNext L) (chainHead L) fuel = some false := by
  obtain ⟨k, rfl⟩ : ∃ k, fuel = k + 2 := ⟨fuel - 2, by omega⟩
  rw [has_cycle]
  by_cases hL0 : L = 0
  · subst hL0
    simp [chainHead, floydGo]
  · rw [chainHead, if_neg hL0]
    by_cases hL1 : 1 < L
    · have e0 : chainNext L 0 = some 1 := by simp [chainNext, hL1]
      by_cases hL2 : 2 < L
      · have e1 : chainNext L 1 = some 2 := by simp [chainNext]; omega
        have step : floydGo (chainNext L) (some 0) (some 0) (k + 1 + 1) =
            floydGo (chainNext L) (some 1) (some 2) (k + 1) := by
          simp only [floydGo, e0, e1, Option.some_bind]
          rw [if_neg (by simp)]
        rw [show k + 2 = k + 1 + 1 from rfl, step]
        exact floyd_chain_false L k 1 2 (by omega) hL2 (by omega)
      · have hL2' : L = 2 := by omega
        subst hL2'
        have e1 : chainNext 2 1 = none := by simp [chainNext]
        have step : floydGo (chainNext 2) (some 0) (some 0) (k + 1 + 1) =
            floydGo (chainNext 2) (some 1) none (k + 1) := by
          simp only [floydGo, e0, e1, Option.some_bind]
          rw [if_neg (by simp)]
        rw [show k + 2 = k + 1 + 1 from rfl, step]
        simp [floydGo]
    · have hL1' : L = 1 := by omega
      subst hL1'
      simp [floydGo, chainNext]

theorem mod_succ_eq (a c : Nat) (hc : 0 < c) :
    (a + 1) % c = if a % c + 1 = c then 0 else a % c + 1 := by
  have hdm := Nat.div_add_mod a c
  by_cases he : a % c + 1 = c
  · rw [if_pos he]
    have h1 : a + 1 = c * (a / c + 1) := by
      have : c * (a / c + 1) = c * (a / c) + c := by ring
      omega
    rw [h1, Nat.mul_mod_right]
  · rw [if_neg he]
    have hlt : a % c < c := Nat.mod_lt _ hc
    have h1 : a + 1 = c * (a / c) + (a % c + 1) := by omega
    rw [h1, Nat.mul_add_mod]
    exact Nat.mod_eq_of_lt (by omega)

theorem rhoPos_step (n j k : Nat) (hj : j < n) :
    backNext n j (rhoPos n j k) = some (rhoPos n j (k + 1)) := by
  have hc : 0 < n - j := by omega
  by_cases hk1 : k + 1 < n
  · rw [show rhoPos n j k = k from by rw [rhoPos, if_pos (by omega)],
      backNext, if_pos hk1,
      show rhoPos n j (k + 1) = k + 1 from by rw [rhoPos, if_pos hk1]]
  · by_cases hk : k < n
    · have hmid : rhoPos n j (k + 1) = j := by
        rw [rhoPos, if_neg (by omega), show k + 1 - j = n - j from by omega,
          Nat.mod_self]
        omega
      rw [show rhoPos n j k = k from by rw [rhoPos, if_pos hk],
        backNext, if_neg hk1, hmid]
    · have hr : (k - j) % (n - j) < n - j := Nat.mod_lt _ hc
      rw [show rhoPos n j k = j + (k - j) % (n - j) from by
          rw [rhoPos, if_neg hk],
        show rhoPos n j (k + 1) = j + (k + 1 - j) % (n - j) from by
          rw [rhoPos, if_neg (by omega)],
        show k + 1 - j = (k - j) + 1 from by omega,
        mod_succ_eq (k - j) (n - j) hc]
      by_cases he : (k - j) % (n - j) + 1 = n - j
      · rw [if_pos he, backNext, if_neg (by omega)]
        simp
      · rw [if_neg he, backNext, if_pos (by omega)]
        congr 1

theorem floyd_meets (nx : Nat → Option Nat) (pos : Nat → Nat)
    (hstep : ∀ k, nx (pos k) = some (pos (k + 1))) :
    ∀ fuel i, (∃ k, i < k ∧ k ≤ i + fuel ∧ pos k = pos (2 * k)) →
      floydGo nx (some (pos i)) (some (pos (2 * i))) fuel = some true := by
  intro fuel
  induction fuel with
  | zero =>
    intro i h
    obtain ⟨k, hik, hk, _⟩ := h
    omega
  | succ fuel' ih =>
    intro i h
    obtain ⟨k, hik, hkle, hmeet⟩ := h
    have e1 : nx (pos (2 * i)) = some (pos (2 * i + 1)) := hstep _
    have e2 : nx (pos (2 * i + 1)) = some (pos (2 * i + 1 + 1)) := hstep _
    have e3 : nx (pos i) = some (pos (i + 1)) := hstep _
    simp only [floydGo, e1, e2, e3, Option.some_bind]
    by_cases heq : (some (pos (i + 1)) : Option Nat) = some (pos (2 * i + 1 + 1))
    · rw [if_pos heq]
    · rw [if_neg heq]
      have h2i : 2 * i + 1 + 1 = 2 * (i + 1) := by ring
      rw [show pos (2 * i + 1 + 1) = pos (2 * (i + 1)) from by rw [h2i]]
      apply ih (i + 1)
      refine ⟨k, ?_, by omega, hmeet⟩
      rcases Nat.lt_or_ge (i + 1) k with hlt | hge
      · exact hlt
      · exfalso
        have hk1 : k = i + 1 := by omega
        subst hk1
        apply heq
        rw [show 2 * i + 1 + 1 = 2 * (i + 1) from by ring, ← hmeet]

theorem rhoPos_ge (n j k : Nat) (hj : j < n) (hk : j ≤ k) :
    rhoPos n j k = j + (k - j) % (n - j) := by
  rw [rhoPos]
  by_cases h : k < n
  · rw [if_pos h, Nat.mod_eq_of_lt (by omega)]
    omega
  · rw [if_neg h]

theorem rho_meet (n j : Nat) (hj : j < n) :
    ∃ k, 0 < k ∧ k ≤ n ∧ rhoPos n j k = rhoPos n j (2 * k) := by
  have hc : 0 < n - j := by omega
  have hdm := Nat.div_add_mod j (n - j)
  have hmod : j % (n - j) < n - j := Nat.mod_lt _ hc
  have hmul : (n - j) * (j / (n - j) + 1) =
      (n - j) * (j / (n - j)) + (n - j) := by ring
  refine ⟨(n - j) * (j / (n - j) + 1), by omega, by omega, ?_⟩
  have hjk : j ≤ (n - j) * (j / (n - j) + 1) := by omega
  rw [rhoPos_ge n j _ hj hjk, rhoPos_ge n j _ hj (by omega)]
  congr 1
  rw [show 2 * ((n - j) * (j / (n - j) + 1)) - j =
      ((n - j) * (j / (n - j) + 1) - j) + (n - j) * (j / (n - j) + 1) from by
    omega]
  rw [show ((n - j) * (j / (n - j) + 1) - j) + (n - j) * (j / (n - j) + 1) =
      ((n - j) * (j / (n - j) + 1) - j) + ((j / (n - j) + 1)) * (n - j) from by
    ring_nf]
  rw [Nat.add_mul_mod_self_right]

theorem has_cycle_back_true (n j fuel : Nat) (hj : j < n) (hfuel : n ≤ fuel) :
    has_cycle (backNext n j) (some 0) fuel = some true := by
  obtain ⟨k, hk0, hkn, hmeet⟩ := rho_meet n j hj
  have h0 : rhoPos n j 0 = 0 := by rw [rhoPos, if_pos (by omega)]
  have hrun := floyd_meets (backNext n j) (rhoPos n j)
    (fun m => rhoPos_step n j m hj) fuel 0 ⟨k, by omega, by omega, hmeet⟩
  rw [has_cycle]
  rw [show (2 : Nat) * 0 = 0 from rfl, h0] at hrun
  exact hrun

/-- Claim C6: the tortoise-and-hare loop of `has_cycle` reaches a `return`
within an explicit step budget on every chain heap (acyclic) and on every
chain heap whose last node has been relinked to an earlier node (cyclic),
returning `false` on every acyclic chain of any length and `true` on every
back-edge heap. -/
theorem C6_has_cycle :
    (∀ L fuel, L + 2 ≤ fuel →
      has_cycle (chainNext L) (chainHead L) fuel = some false) ∧
    (∀ n j fuel, j < n → n ≤ fuel →
      has_cycle (backNext n j) (some 0) fuel = some true) :=
  ⟨has_cycle_chain_false, has_cycle_back_true⟩

/-- C6 applied at concrete inputs: a four-node acyclic chain, and a
four-node chain whose last node links back to node 1. -/
theorem C6_witness :
    has_cycle (chainNext 4) (chainHead 4) 10 = some false ∧
    has_cycle (backNext 4 1) (some 0) 10 = some true :=
  ⟨C6_has_cycle.1 4 10 (by omega), C6_has_cycle.2 4 1 10 (by omega) (by omega)⟩

end SLL
